import Mathlib

/-!
Verification of the incremental-backup engine in `backup.py` (class `Backupper`).

Paths are modelled as `List Char` (the program manipulates Windows path strings
with `'\\'` separators).  File-modification times are modelled as `ℚ`
(the program compares `float` POSIX timestamps; only order and the literal `0.0`
matter to the logic, and every comparison the program performs is exact at the
inputs considered here).  The source tree visible to the scanner is modelled as
an inductive `Entry` tree; the destination directory is modelled as an oracle
`List Char → Option ℚ` giving the modification time of an existing destination
path (`none` = `os.path.exists` is false).  Fallible operations return `Except`.
-/

set_option autoImplicit false

namespace Backupper

/-- Path separator used by `get_dest_path` and `os.path.join` on Windows. -/
def sep : Char := '\\'

/-- Characters `ntpath` treats as directory separators. -/
def isSepChar (c : Char) : Bool := c == '\\' || c == '/'

/-- Model of `os.path.join(p, n)` on Windows for a non-empty directory prefix
`p` (no trailing separator) and a plain component `n`: `p + '\\' + n`. -/
def pyJoin (p n : List Char) : List Char := p ++ sep :: n

/-- Model of `os.path.basename`: the maximal suffix containing no separator. -/
def basename (s : List Char) : List Char :=
  (s.reverse.takeWhile (fun c => !isSepChar c)).reverse

/-- Index of the first occurrence of `pat` as a contiguous sublist of `s`
(`none` when `pat` does not occur), as computed by `str.find`. -/
def findFrom (pat : List Char) : List Char → Option ℕ
  | [] => if pat.isPrefixOf ([] : List Char) then some 0 else none
  | c :: t =>
    if pat.isPrefixOf (c :: t) then some 0 else (findFrom pat t).map (· + 1)

/-- Model of Python `s.find(pat)`: first index of occurrence, `-1` if absent. -/
def pyFind (s pat : List Char) : ℤ :=
  match findFrom pat s with
  | some n => (n : ℤ)
  | none => -1

/-- Model of `path.find(os.path.basename(path))` (line 112), the per-root base
offset.  `basename path` is a suffix of `path`, so the search always succeeds
and the `Int.toNat` coercion is exact. -/
def startOfBase (path : List Char) : ℕ := (pyFind path (basename path)).toNat

/-- Model of `Backupper.get_dest_path` (lines 60-68):
`backup_to + '\\' + backup_from[start_of_base:]`. -/
def get_dest_path (backup_to backup_from : List Char) (start_of_base : ℕ) :
    List Char :=
  backup_to ++ sep :: backup_from.drop start_of_base

/-- Model of Python `str.strip()` on the character lists we use
(whitespace removal at both ends). -/
def pyStrip (s : List Char) : List Char :=
  ((s.dropWhile Char.isWhitespace).reverse.dropWhile Char.isWhitespace).reverse

/-- The suffix of a path that `basename` extracts really is a suffix. -/
theorem basename_isSuffix (s : List Char) : basename s <:+ s := by
  have h1 : s.reverse.takeWhile (fun c => !isSepChar c) <+: s.reverse :=
    List.takeWhile_prefix _
  rw [basename, ← List.reverse_prefix, List.reverse_reverse]
  exact h1

/-- `basename` never exceeds the path length. -/
theorem basename_length_le (s : List Char) : (basename s).length ≤ s.length :=
  (basename_isSuffix s).length_le

/-- One node of the source tree visible to the scanner.  A `ghost` is an entry
returned by `os.listdir` of its parent whose `os.path`-level stat calls
subsequently fail with `FileNotFoundError` (it vanished between listing and
stat — the race the spec calls "source vanished").  A `dir` whose `denied`
flag is set raises `PermissionError` from `os.listdir`. -/
inductive Entry where
  | file (name : List Char) (mtime : ℚ) (size : ℕ)
  | dir (name : List Char) (mtime : ℚ) (denied : Bool) (children : List Entry)
  | ghost (name : List Char)

/-- Name of the entry inside its parent directory listing. -/
def Entry.name : Entry → List Char
  | .file n _ _ => n
  | .dir n _ _ _ => n
  | .ghost n => n

/-- Model of `os.path.isdir` applied to the entry's path. -/
def Entry.isdir : Entry → Bool
  | .dir _ _ _ _ => true
  | _ => false

/-- Model of `os.path.getmtime` on a source path: `none` means the call raises
`FileNotFoundError` (the entry vanished). -/
def Entry.srcMtime : Entry → Option ℚ
  | .file _ m _ => some m
  | .dir _ m _ _ => some m
  | .ghost _ => none

/-- Model of `os.path.getsize` for the entries on which `scan` calls it
(files reached through `get_modified_paths`). -/
def Entry.size : Entry → ℕ
  | .file _ _ s => s
  | _ => 0

/-- A `(source, destination)` pair as stored in `items_to_backup`. -/
abbrev Task := List Char × List Char

/-- The destination tree, as the scanner observes it: `D p = some t` models
`os.path.exists(p) = True` with `os.path.getmtime(p) = t`, and `D p = none`
models `os.path.exists(p) = False`. -/
abbrev DestFS := List Char → Option ℚ

/-- Exceptions that can escape the scanner (neither is caught by `scan`). -/
inductive PyErr where
  | notADirectory
  | fileNotFound
deriving DecidableEq

/-- Model of `Backupper.get_modified_paths` (lines 70-96).  For each listed
item it computes the joined source path and its destination path, reads the
source mtime (raising `FileNotFoundError` — `.error .fileNotFound` — if the
item vanished), takes the destination mtime as `0.0` when the destination does
not exist or the source is a directory, and keeps the item when the source
mtime is strictly greater.  The kept items are returned in listing order,
paired with their `Entry` (the model's stand-in for what the OS returns for
that path afterwards). -/
def get_modified_paths (to_path from_path : List Char) (items : List Entry)
    (start_of_base : ℕ) (D : DestFS) : Except PyErr (List (List Char × Entry)) :=
  match items with
  | [] => .ok []
  | c :: rest =>
    let new_path := pyJoin from_path c.name
    let dest_path := get_dest_path to_path new_path start_of_base
    match c.srcMtime with
    | none => .error .fileNotFound
    | some src_mod_time =>
      let dest_mod_time : ℚ :=
        if D dest_path = none ∨ c.isdir = true then 0 else (D dest_path).getD 0
      match get_modified_paths to_path from_path rest start_of_base D with
      | .error e => .error e
      | .ok tail =>
        .ok (if dest_mod_time < src_mod_time then (new_path, c) :: tail else tail)

/-- The boolean test deciding whether `get_modified_paths` keeps one item. -/
def keepChild (to_path from_path : List Char) (start_of_base : ℕ) (D : DestFS)
    (c : Entry) : Bool :=
  match c.srcMtime with
  | none => false
  | some sm =>
    let dest_path := get_dest_path to_path (pyJoin from_path c.name) start_of_base
    decide ((if D dest_path = none ∨ c.isdir = true then (0 : ℚ)
             else (D dest_path).getD 0) < sm)

/-- Model of the `for p in paths_to_copy` loop of `scan` (lines 133-139):
directories are pushed onto the front of `scan_list`, files are prepended to
`items_to_backup` together with their destination, and their size is added to
the running total. -/
def pushMods (to_path : List Char) (start_of_base : ℕ) :
    List (List Char × Entry) → List (List Char × Entry) → List Task → ℕ →
    List (List Char × Entry) × List Task × ℕ
  | [], scan_list, tasks, amount => (scan_list, tasks, amount)
  | (p, e) :: rest, scan_list, tasks, amount =>
    let dest := get_dest_path to_path p start_of_base
    if e.isdir then
      pushMods to_path start_of_base rest ((p, e) :: scan_list) tasks amount
    else
      pushMods to_path start_of_base rest scan_list ((p, dest) :: tasks)
        (amount + e.size)

mutual

/-- Number of nodes of the subtree rooted at an entry (used as the scanner's
termination measure). -/
def entrySize : Entry → ℕ
  | .file _ _ _ => 1
  | .ghost _ => 1
  | .dir _ _ _ ch => 1 + entryListSize ch

/-- Total number of nodes of a forest. -/
def entryListSize : List Entry → ℕ
  | [] => 0
  | e :: es => entrySize e + entryListSize es

end

/-- Termination measure for the work-list loop: total node count of the
entries still queued. -/
def workMeasure (w : List (List Char × Entry)) : ℕ :=
  (w.map (fun pe => entrySize pe.2)).sum

/-- Every entry has positive size. -/
theorem entrySize_pos (e : Entry) : 0 < entrySize e := by
  cases e <;> simp [entrySize]

/-- `entryListSize` is the sum of the member sizes. -/
theorem entryListSize_eq_sum (l : List Entry) :
    entryListSize l = (l.map entrySize).sum := by
  induction l with
  | nil => simp [entryListSize]
  | cons a t ih => simp [entryListSize, ih]

/-- The `scan_list` produced by `pushMods` is the kept directories, reversed,
in front of the incoming `scan_list`. -/
theorem pushMods_fst (to_path : List Char) (start_of_base : ℕ) :
    ∀ (mods scan_list : List (List Char × Entry)) (tasks : List Task) (amount : ℕ),
      (pushMods to_path start_of_base mods scan_list tasks amount).1 =
        (mods.filter (fun pe => pe.2.isdir)).reverse ++ scan_list := by
  intro mods
  induction mods with
  | nil => intro scan_list tasks amount; simp [pushMods]
  | cons pe rest ih =>
    intro scan_list tasks amount
    obtain ⟨p, e⟩ := pe
    by_cases he : e.isdir
    · simp [pushMods, he, ih]
    · simp [pushMods, he, ih]

/-- Whenever `get_modified_paths` returns normally, its result is exactly the
`keepChild`-filtered listing, in order, paired with joined paths. -/
theorem get_modified_paths_ok_eq (to_path from_path : List Char)
    (start_of_base : ℕ) (D : DestFS) :
    ∀ (items : List Entry) (mods : List (List Char × Entry)),
      get_modified_paths to_path from_path items start_of_base D = .ok mods →
      mods = (items.filter (keepChild to_path from_path start_of_base D)).map
        (fun c => (pyJoin from_path c.name, c)) := by
  intro items
  induction items with
  | nil =>
    intro mods h
    simp only [get_modified_paths] at h
    cases h
    simp
  | cons c rest ih =>
    intro mods h
    simp only [get_modified_paths] at h
    cases hm : c.srcMtime with
    | none => rw [hm] at h; cases h
    | some sm =>
      rw [hm] at h
      dsimp only at h
      cases hr : get_modified_paths to_path from_path rest start_of_base D with
      | error e => rw [hr] at h; cases h
      | ok tail =>
        rw [hr] at h
        dsimp only at h
        have htail := ih tail hr
        by_cases hlt :
            (if D (get_dest_path to_path (pyJoin from_path c.name) start_of_base)
                  = none ∨ c.isdir = true then (0 : ℚ)
             else (D (get_dest_path to_path (pyJoin from_path c.name)
                  start_of_base)).getD 0) < sm
        · rw [if_pos hlt] at h
          cases h
          have hk : keepChild to_path from_path start_of_base D c = true := by
            simp only [keepChild, hm]
            exact decide_eq_true hlt
          simp [hk, htail]
        · rw [if_neg hlt] at h
          cases h
          have hk : keepChild to_path from_path start_of_base D c = false := by
            simp only [keepChild, hm]
            exact decide_eq_false hlt
          simp [hk, htail]

/-- If no listed item has vanished, `get_modified_paths` returns normally. -/
theorem get_modified_paths_ok (to_path from_path : List Char)
    (start_of_base : ℕ) (D : DestFS) :
    ∀ (items : List Entry), (∀ c ∈ items, c.srcMtime ≠ none) →
      get_modified_paths to_path from_path items start_of_base D =
        .ok ((items.filter (keepChild to_path from_path start_of_base D)).map
          (fun c => (pyJoin from_path c.name, c))) := by
  intro items
  induction items with
  | nil => intro _; simp [get_modified_paths]
  | cons c rest ih =>
    intro hng
    have hc : c.srcMtime ≠ none := hng c (List.mem_cons_self c rest)
    cases hm : c.srcMtime with
    | none => exact absurd hm hc
    | some sm =>
      have hrest := ih (fun x hx => hng x (List.mem_cons_of_mem c hx))
      simp only [get_modified_paths, hm, hrest]
      by_cases hlt :
          (if D (get_dest_path to_path (pyJoin from_path c.name) start_of_base)
                = none ∨ c.isdir = true then (0 : ℚ)
           else (D (get_dest_path to_path (pyJoin from_path c.name)
                start_of_base)).getD 0) < sm
      · have hk : keepChild to_path from_path start_of_base D c = true := by
          simp only [keepChild, hm]
          exact decide_eq_true hlt
        simp [hk, hlt]
      · have hk : keepChild to_path from_path start_of_base D c = false := by
          simp only [keepChild, hm]
          exact decide_eq_false hlt
        simp [hk, hlt]

/-- The work queued by `get_modified_paths` weighs no more than the listing
it filtered. -/
theorem get_modified_paths_measure (to_path from_path : List Char)
    (start_of_base : ℕ) (D : DestFS)
    (items : List Entry) (mods : List (List Char × Entry))
    (h : get_modified_paths to_path from_path items start_of_base D = .ok mods) :
    workMeasure mods ≤ entryListSize items := by
  have heq := get_modified_paths_ok_eq to_path from_path start_of_base D items mods h
  subst heq
  rw [workMeasure, List.map_map, entryListSize_eq_sum]
  have hsub : ((items.filter (keepChild to_path from_path start_of_base D)).map
      entrySize).Sublist (items.map entrySize) :=
    (List.filter_sublist items).map entrySize
  have := hsub.sum_le_sum (fun a _ => Nat.zero_le a)
  simpa using this

/-- Model of the `while len(scan_list) != 0` loop of `Backupper.scan`
(lines 118-139), for one source root.  The queue holds source paths paired
with the entry the OS resolves them to.  Popping a path lists it:
`os.listdir` raises `NotADirectoryError` on a file, `FileNotFoundError` on a
vanished path, and `PermissionError` — the only exception `scan` catches — on
a denied directory, which is skipped with `continue`.  Otherwise the modified
children are computed and distributed by `pushMods`. -/
def scanAux (backup_to : List Char) (start_of_base : ℕ) (D : DestFS) :
    List (List Char × Entry) → List Task → ℕ → Except PyErr (ℕ × List Task)
  | [], tasks, amount => .ok (amount, tasks)
  | (_, .file _ _ _) :: _, _, _ => .error .notADirectory
  | (_, .ghost _) :: _, _, _ => .error .fileNotFound
  | (_, .dir _ _ true _) :: rest, tasks, amount =>
    scanAux backup_to start_of_base D rest tasks amount
  | (p, .dir _ _ false ch) :: rest, tasks, amount =>
    match h : get_modified_paths backup_to p ch start_of_base D with
    | .error e => .error e
    | .ok mods =>
      let r := pushMods backup_to start_of_base mods rest tasks amount
      scanAux backup_to start_of_base D r.1 r.2.1 r.2.2
termination_by w _ _ => workMeasure w
decreasing_by
  · simp only [workMeasure, List.map_cons, List.sum_cons]
    exact Nat.lt_add_of_pos_left (entrySize_pos _)
  · simp only [r, pushMods_fst, workMeasure, List.map_append, List.sum_append,
      List.map_reverse, List.sum_reverse]
    have h1 : workMeasure mods ≤ entryListSize ch :=
      get_modified_paths_measure backup_to p start_of_base D ch mods h
    have h2 : ((mods.filter (fun pe => pe.2.isdir)).map
        (fun pe => entrySize pe.2)).Sublist (mods.map (fun pe => entrySize pe.2)) :=
      (List.filter_sublist mods).map _
    have h3 := h2.sum_le_sum (fun a _ => Nat.zero_le a)
    simp only [workMeasure] at h1
    simp only [List.map_cons, List.sum_cons, entrySize]
    omega

/-- Model of the outer `for path in backup_from` loop of `Backupper.scan`
(lines 111-139): roots are processed one after the other, each with its own
`start_of_base`, accumulating `items_to_backup` and `amount_to_back_up`. -/
def scanRoots (backup_to : List Char) (D : DestFS) :
    List (List Char × Entry) → List Task → ℕ → Except PyErr (ℕ × List Task)
  | [], tasks, amount => .ok (amount, tasks)
  | (rp, re) :: rest, tasks, amount =>
    match scanAux backup_to (startOfBase rp) D [(rp, re)] tasks amount with
    | .error e => .error e
    | .ok (amount', tasks') => scanRoots backup_to D rest tasks' amount'

/-- Model of `Backupper.scan` (lines 98-141).  `roots` pairs each requested
source-root path with the entry the file system resolves it to; the result is
`(amount_to_back_up, items_to_backup)`. -/
def scan (backup_to : List Char) (roots : List (List Char × Entry)) (D : DestFS) :
    Except PyErr (ℕ × List Task) :=
  scanRoots backup_to D roots [] 0

/-- Model of `Backupper.rescan` (lines 143-160).  `S` gives the source
modification time at re-check time (`none` models `os.path.getmtime` raising
`FileNotFoundError`), `D` the destination state.  Items still stale are
returned in order; a vanished source raises — nothing in `rescan` or its
callers catches it. -/
def rescan (S : List Char → Option ℚ) (D : DestFS) : List Task → Except PyErr (List Task)
  | [] => .ok []
  | (src, dest) :: rest =>
    match S src with
    | none => .error .fileNotFound
    | some src_mod_time =>
      let dest_mod_time : ℚ := if D dest = none then 0 else (D dest).getD 0
      match rescan S D rest with
      | .error e => .error e
      | .ok tail =>
        .ok (if dest_mod_time < src_mod_time then (src, dest) :: tail else tail)

/-- Model of the copy/rescan loop of `Backupper.backup` (lines 26-29):
`while len(items_to_backup) > 0: backup_with_threading(...); items_to_backup =
rescan(items_to_backup)`.  The file-system state may change between passes, so
the oracles are indexed by the iteration counter `k`.  `loopIter S D k n items`
is the work list after running at most `n` further iterations: the loop body
has no retry counter, so fuel `n` only truncates our observation of the loop,
not the loop itself. -/
def loopIter (S D : ℕ → List Char → Option ℚ) :
    ℕ → ℕ → List Task → Except PyErr (List Task)
  | _, 0, items => .ok items
  | k, n + 1, items =>
    if items = [] then .ok []
    else
      match rescan (S k) (D k) items with
      | .error e => .error e
      | .ok items' => loopIter S D (k + 1) n items'

/-- Model of `subprocess.run(cmd, ..., shell=True)` for a command exiting with
`exit_code`: `CalledProcessError` (the `.error` branch) is raised if and only
if the call is made with `check=True` and the exit code is nonzero; otherwise
the completed process is returned whatever its exit code. -/
def pyRun (check : Bool) (exit_code : ℤ) : Except ℤ ℤ :=
  if check = true ∧ exit_code ≠ 0 then .error exit_code else .ok exit_code

/-- Model of `Backupper.copy` (lines 162-185) for a task whose underlying
`xcopy` invocation exits with `exit_code`.  The code calls `subprocess.run`
without `check=True`, so the `except subprocess.CalledProcessError` branch
(which would return the error string) is modelled by the `.error` case of
`pyRun false`.  The outer `except IOError` branch concerns spawning, not the
copy result, and is not modelled. -/
def copy (item : Task) (exit_code : ℤ) : Option String :=
  match pyRun false exit_code with
  | .error _ => some "Subprocess error"
  | .ok _ => none

/-- Model of `Backupper.backup_with_threading` (lines 187-201): the per-item
results of one pass (here: each item zipped with the exit code of its copy
command), filtered to the non-`None` error messages the pass surfaces. -/
def backup_with_threading (items : List Task) (exit_codes : List ℤ) : List String :=
  ((items.zip exit_codes).map (fun ic => copy ic.1 ic.2)).filterMap id

/-- Result of `Backupper.read_backup_info`: either the `('', '')` sentinel
returned when the backup file cannot be opened, or a parsed job.  A parsed
job's second component is a Python list, never the string `''`, so only the
sentinel satisfies `(backup_to, backup_from) == ('', '')`. -/
inductive ReadResult where
  | noJob
  | job (backup_to : List Char) (backup_from : List (List Char))
deriving DecidableEq

/-- Model of `Backupper.read_backup_info` (lines 36-58).  `contents` is
`none` when opening the file raises `FileNotFoundError` and otherwise the list
of lines.  The first line is skipped, the second (stripped) is `backup_to`,
the third is skipped, and every remaining line (stripped) is a source root. -/
def read_backup_info (contents : Option (List (List Char))) : ReadResult :=
  match contents with
  | none => .noJob
  | some lines =>
    .job (pyStrip ((lines.drop 1).headD [])) ((lines.drop 3).map pyStrip)

/-- Model of the guard `if not (backup_to, backup_from) == ('', '')` of
`Backupper.backup` (line 19): the scan phase runs exactly when the loader did
not return the sentinel. -/
def proceeds_to_scan (r : ReadResult) : Bool :=
  match r with
  | .noJob => false
  | .job _ _ => true

/-- The `size_names` list of `Backupper.get_proper_size_from` (line 209). -/
def size_names : List String := ["B", "KB", "MB", "GB", "TB"]

/-- Number of iterations of the `while amount > 1024` loop of
`get_proper_size_from` (lines 211-213), i.e. the final value of `name_idx`. -/
def sizeIdx (amount : ℚ) : ℕ :=
  if h : 1024 < amount then sizeIdx (amount / 1024) + 1 else 0
termination_by Nat.ceil amount
decreasing_by
  have hceil : amount ≤ (Nat.ceil amount : ℚ) := Nat.le_ceil amount
  have hn : (1024 : ℚ) < (Nat.ceil amount : ℚ) := lt_of_lt_of_le h hceil
  have hn' : 1024 < Nat.ceil amount := by exact_mod_cast hn
  have hq : amount / 1024 ≤ ((Nat.ceil amount - 1 : ℕ) : ℚ) := by
    have hcast : ((Nat.ceil amount - 1 : ℕ) : ℚ) = (Nat.ceil amount : ℚ) - 1 := by
      push_cast [Nat.cast_sub (by omega : 1 ≤ Nat.ceil amount)]
      ring
    rw [hcast]
    rw [div_le_iff₀ (by norm_num : (0 : ℚ) < 1024)]
    nlinarith [hceil, hn]
  have := Nat.ceil_le.mpr hq
  omega

/-- Model of `Backupper.get_proper_size_from` (lines 203-217).  The loop
divides `amount` by 1024 while it exceeds 1024, counting `name_idx`; the
final line indexes `size_names[name_idx]`, whose out-of-range `IndexError` is
modelled by `none`.  The decimal rendering of the scaled value
(`str(round(...))` and the no-op `rstrip` of line 216) is the external
"human-readable size formatting" collaborator of the spec and is kept
abstract as the scaled rational paired with the unit name. -/
def get_proper_size_from (amount : ℚ) : Option (ℚ × String) :=
  match size_names[sizeIdx amount]? with
  | none => none
  | some u => some (amount / 1024 ^ sizeIdx amount, u)

/-- Unfolding equation of `sizeIdx` below the loop guard. -/
theorem sizeIdx_of_le {amount : ℚ} (h : amount ≤ 1024) : sizeIdx amount = 0 := by
  rw [sizeIdx]
  simp [not_lt.mpr h]

/-- Unfolding equation of `sizeIdx` above the loop guard. -/
theorem sizeIdx_of_lt {amount : ℚ} (h : 1024 < amount) :
    sizeIdx amount = sizeIdx (amount / 1024) + 1 := by
  rw [sizeIdx]
  simp [h]

/-- The loop of `get_proper_size_from` runs at most `k` times on an amount of
at most `1024 ^ (k + 1)` bytes. -/
theorem sizeIdx_le (k : ℕ) : ∀ {amount : ℚ}, amount ≤ 1024 ^ (k + 1) → sizeIdx amount ≤ k := by
  induction k with
  | zero =>
    intro amount h
    rw [pow_one] at h
    simp [sizeIdx_of_le h]
  | succ k ih =>
    intro amount h
    by_cases hgt : 1024 < amount
    · rw [sizeIdx_of_lt hgt]
      have hle : amount / 1024 ≤ 1024 ^ (k + 1) := by
        rw [div_le_iff₀ (by norm_num : (0 : ℚ) < 1024)]
        calc amount ≤ 1024 ^ (k + 2) := h
        _ = 1024 ^ (k + 1) * 1024 := by ring
      exact Nat.succ_le_succ (ih hle)
    · simp [sizeIdx_of_le (not_lt.mp hgt)]

/-- The loop of `get_proper_size_from` runs more than `k` times on an amount
above `1024 ^ (k + 1)` bytes. -/
theorem lt_sizeIdx (k : ℕ) : ∀ {amount : ℚ}, (1024 : ℚ) ^ (k + 1) < amount → k < sizeIdx amount := by
  induction k with
  | zero =>
    intro amount h
    rw [pow_one] at h
    rw [sizeIdx_of_lt h]
    exact Nat.succ_pos _
  | succ k ih =>
    intro amount h
    have hgt : (1024 : ℚ) < amount := by
      have hpow : (1024 : ℚ) ≤ 1024 ^ (k + 2) := by
        calc (1024 : ℚ) = 1024 ^ 1 := (pow_one _).symm
        _ ≤ 1024 ^ (k + 2) := by
          apply pow_le_pow_right₀ (by norm_num) (by omega)
      exact lt_of_le_of_lt hpow h
    rw [sizeIdx_of_lt hgt]
    have hlt : (1024 : ℚ) ^ (k + 1) < amount / 1024 := by
      rw [lt_div_iff₀ (by norm_num : (0 : ℚ) < 1024)]
      calc (1024 : ℚ) ^ (k + 1) * 1024 = 1024 ^ (k + 2) := by ring
      _ < amount := h
    exact Nat.succ_lt_succ (ih hlt)

/-- A ghost anywhere in a directory listing makes `get_modified_paths` raise
`FileNotFoundError` (the `os.path.getmtime` call at line 87 on the vanished
item, or on an earlier vanished item). -/
theorem get_modified_paths_ghost (to_path from_path : List Char)
    (start_of_base : ℕ) (D : DestFS) :
    ∀ (pre post : List Entry) (g : List Char),
      get_modified_paths to_path from_path (pre ++ .ghost g :: post)
        start_of_base D = .error .fileNotFound := by
  intro pre
  induction pre with
  | nil => intro post g; simp [get_modified_paths, Entry.srcMtime]
  | cons c rest ih =>
    intro post g
    rw [List.cons_append]
    simp only [get_modified_paths]
    cases hm : c.srcMtime with
    | none => rfl
    | some sm =>
      dsimp only
      rw [ih post g]

/-- A vanished source anywhere in the rescan list makes `rescan` raise
`FileNotFoundError` (the `os.path.getmtime` call at line 154). -/
theorem rescan_vanished (S : List Char → Option ℚ) (D : DestFS)
    (src dest : List Char) (hS : S src = none) :
    ∀ (pre post : List Task),
      rescan S D (pre ++ (src, dest) :: post) = .error .fileNotFound := by
  intro pre
  induction pre with
  | nil => intro _; simp [rescan, hS]
  | cons t rest ih =>
    intro post
    obtain ⟨s, d⟩ := t
    rw [List.cons_append]
    simp only [rescan]
    cases hm : S s with
    | none => rfl
    | some sm =>
      dsimp only
      rw [ih post]

mutual

/-- Contribution of one child `c`, listed under the directory at path `p`, to
the final task list of `scanAux`: a kept file contributes its task (paired
with its entry, recording which file and hence which on-disk size the task
was charged with); a kept, non-denied directory contributes the tasks of its
own listing; everything else contributes nothing. -/
def childSpec (bt : List Char) (start : ℕ) (D : DestFS) (p : List Char) :
    Entry → List (Task × Entry)
  | .file n m s =>
    if keepChild bt p start D (.file n m s) then
      [((pyJoin p n, get_dest_path bt (pyJoin p n) start), .file n m s)]
    else []
  | .ghost _ => []
  | .dir n m den ch =>
    if keepChild bt p start D (.dir n m den ch) then
      if den then [] else childListSpec bt start D (pyJoin p n) ch
    else []

/-- Concatenated contributions of a listing, in listing order. -/
def childListSpec (bt : List Char) (start : ℕ) (D : DestFS) (p : List Char) :
    List Entry → List (Task × Entry)
  | [] => []
  | c :: cs => childSpec bt start D p c ++ childListSpec bt start D p cs

end

/-- Contribution of popping one queued `(path, entry)` from the work list:
a denied directory is skipped, a readable one contributes its listing. -/
def poppedSpec (bt : List Char) (start : ℕ) (D : DestFS) :
    List Char × Entry → List (Task × Entry)
  | (p, .dir _ _ den ch) => if den then [] else childListSpec bt start D p ch
  | _ => []

/-- Contribution of a whole work list. -/
def workSpec (bt : List Char) (start : ℕ) (D : DestFS) :
    List (List Char × Entry) → List (Task × Entry)
  | [] => []
  | pe :: rest => poppedSpec bt start D pe ++ workSpec bt start D rest

/-- Contribution of a root list, each root with its own base offset. -/
def rootsSpec (bt : List Char) (D : DestFS) :
    List (List Char × Entry) → List (Task × Entry)
  | [] => []
  | (rp, re) :: rest =>
    poppedSpec bt (startOfBase rp) D (rp, re) ++ rootsSpec bt D rest

mutual

/-- No entry of the subtree has vanished (no stat call on it can raise
`FileNotFoundError`). -/
def ghostFreeB : Entry → Bool
  | .file _ _ _ => true
  | .ghost _ => false
  | .dir _ _ _ ch => ghostFreeL ch

/-- `ghostFreeB` over a forest. -/
def ghostFreeL : List Entry → Bool
  | [] => true
  | c :: cs => ghostFreeB c && ghostFreeL cs

end

mutual

/-- Every modification time in the subtree is strictly positive (true of any
file system younger than the 1970 epoch). -/
def posMtimeB : Entry → Bool
  | .file _ m _ => decide (0 < m)
  | .ghost _ => true
  | .dir _ m _ ch => decide (0 < m) && posMtimeL ch

/-- `posMtimeB` over a forest. -/
def posMtimeL : List Entry → Bool
  | [] => true
  | c :: cs => posMtimeB c && posMtimeL cs

end

mutual

/-- No directory of the subtree denies its listing. -/
def noDeniedB : Entry → Bool
  | .file _ _ _ => true
  | .ghost _ => true
  | .dir _ _ den ch => !den && noDeniedL ch

/-- `noDeniedB` over a forest. -/
def noDeniedL : List Entry → Bool
  | [] => true
  | c :: cs => noDeniedB c && noDeniedL cs

end

mutual

/-- All file entries below a child `c` of the directory at path `p`, paired
with their full source paths. -/
def filesUnder (p : List Char) : Entry → List (List Char × Entry)
  | .file n m s => [(pyJoin p n, .file n m s)]
  | .ghost _ => []
  | .dir n _ _ ch => filesUnderL (pyJoin p n) ch

/-- `filesUnder` over a forest. -/
def filesUnderL (p : List Char) : List Entry → List (List Char × Entry)
  | [] => []
  | c :: cs => filesUnder p c ++ filesUnderL p cs

end

/-- The claim's notion of staleness for a file at source path `p` with
modification time `m`: the destination computed for `p` does not exist, or
its modification time is strictly below `m`. -/
def staleFileB (bt : List Char) (start : ℕ) (D : DestFS) (p : List Char) (m : ℚ) : Bool :=
  let dest := get_dest_path bt p start
  decide (D dest = none) || decide ((D dest).getD 0 < m)

/-- `staleFileB` on a `(path, entry)` pair (false on non-files). -/
def fileStaleB (bt : List Char) (start : ℕ) (D : DestFS) : List Char × Entry → Bool
  | (p, .file _ m _) => staleFileB bt start D p m
  | _ => false

/-- The kept files of one listing, as spec elements. -/
def fileSpecs (bt : List Char) (start : ℕ) (D : DestFS) (p : List Char)
    (ch : List Entry) : List (Task × Entry) :=
  (ch.filter (fun c => keepChild bt p start D c && !c.isdir)).map
    (fun c => ((pyJoin p c.name, get_dest_path bt (pyJoin p c.name) start), c))

/-- The kept directories of one listing, as queued work items. -/
def dirMods (bt : List Char) (start : ℕ) (D : DestFS) (p : List Char)
    (ch : List Entry) : List (List Char × Entry) :=
  (ch.filter (fun c => keepChild bt p start D c && c.isdir)).map
    (fun c => (pyJoin p c.name, c))

/-- A dropped child contributes nothing. -/
theorem childSpec_of_keep_false (bt : List Char) (start : ℕ) (D : DestFS)
    (p : List Char) (c : Entry) (hk : keepChild bt p start D c = false) :
    childSpec bt start D p c = [] := by
  cases c <;> simp [childSpec, hk]

/-- A vanished entry is never kept (`keepChild` reads its mtime first). -/
theorem keepChild_ghost (bt : List Char) (start : ℕ) (D : DestFS)
    (p g : List Char) : keepChild bt p start D (.ghost g) = false := by
  simp [keepChild, Entry.srcMtime]

/-- A denied directory contributes nothing, kept or not. -/
theorem childSpec_denied (bt : List Char) (start : ℕ) (D : DestFS)
    (p n : List Char) (m : ℚ) (ch : List Entry) :
    childSpec bt start D p (.dir n m true ch) = [] := by
  cases hk : keepChild bt p start D (.dir n m true ch) <;> simp [childSpec, hk]

/-- Members of a ghost-free forest are ghost-free. -/
theorem ghostFreeL_mem {ch : List Entry} (h : ghostFreeL ch = true) :
    ∀ c ∈ ch, ghostFreeB c = true := by
  induction ch with
  | nil => intro c hc; cases hc
  | cons a cs ih =>
    rw [ghostFreeL, Bool.and_eq_true] at h
    intro c hc
    rcases List.mem_cons.mp hc with rfl | hc
    · exact h.1
    · exact ih h.2 c hc

/-- A ghost-free entry has a readable mtime. -/
theorem ghostFreeB_srcMtime {c : Entry} (h : ghostFreeB c = true) :
    c.srcMtime ≠ none := by
  cases c with
  | file n m s => simp [Entry.srcMtime]
  | dir n m d ch => simp [Entry.srcMtime]
  | ghost g => simp [ghostFreeB] at h

/-- `workSpec` distributes over appended work lists. -/
theorem workSpec_append (bt : List Char) (start : ℕ) (D : DestFS) :
    ∀ (w1 w2 : List (List Char × Entry)),
      workSpec bt start D (w1 ++ w2) =
        workSpec bt start D w1 ++ workSpec bt start D w2 := by
  intro w1
  induction w1 with
  | nil => intro w2; simp [workSpec]
  | cons pe rest ih => intro w2; simp [workSpec, ih, List.append_assoc]

/-- Reversing the work list only permutes the produced tasks. -/
theorem workSpec_reverse (bt : List Char) (start : ℕ) (D : DestFS) :
    ∀ w : List (List Char × Entry),
      (workSpec bt start D w.reverse : Multiset (Task × Entry)) =
        ↑(workSpec bt start D w) := by
  intro w
  induction w with
  | nil => rfl
  | cons pe rest ih =>
    rw [List.reverse_cons, workSpec_append]
    simp only [← Multiset.coe_add, ih]
    conv_rhs => rw [workSpec]
    simp only [workSpec, List.append_nil, ← Multiset.coe_add]
    exact add_comm _ _

/-- Splitting one listing's contribution into its kept files and the
contributions of its kept directories. -/
theorem childListSpec_split (bt : List Char) (start : ℕ) (D : DestFS) (p : List Char) :
    ∀ ch : List Entry,
      (childListSpec bt start D p ch : Multiset (Task × Entry)) =
        ↑(fileSpecs bt start D p ch) +
          ↑(workSpec bt start D (dirMods bt start D p ch)) := by
  intro ch
  induction ch with
  | nil => simp [childListSpec, fileSpecs, dirMods, workSpec]
  | cons c cs ih =>
    rw [childListSpec]
    cases hk : keepChild bt p start D c with
    | false =>
      have hfs : fileSpecs bt start D p (c :: cs) = fileSpecs bt start D p cs := by
        simp [fileSpecs, List.filter_cons, hk]
      have hdm : dirMods bt start D p (c :: cs) = dirMods bt start D p cs := by
        simp [dirMods, List.filter_cons, hk]
      rw [childSpec_of_keep_false bt start D p c hk, hfs, hdm, List.nil_append]
      exact ih
    | true =>
      cases c with
      | file n m s =>
        have hcs : childSpec bt start D p (.file n m s) =
            [((pyJoin p n, get_dest_path bt (pyJoin p n) start), .file n m s)] := by
          simp [childSpec, hk]
        have hfs : fileSpecs bt start D p (.file n m s :: cs) =
            ((pyJoin p n, get_dest_path bt (pyJoin p n) start), .file n m s) ::
              fileSpecs bt start D p cs := by
          simp [fileSpecs, List.filter_cons, hk, Entry.isdir, Entry.name]
        have hdm : dirMods bt start D p (.file n m s :: cs) =
            dirMods bt start D p cs := by
          simp [dirMods, List.filter_cons, hk, Entry.isdir]
        rw [hcs, hfs, hdm, ← List.singleton_append]
        simp only [← Multiset.coe_add, ih, ← Multiset.cons_coe, Multiset.coe_nil,
          Multiset.coe_singleton, ← Multiset.singleton_add]
        abel
      | ghost g =>
        rw [keepChild_ghost] at hk
        cases hk
      | dir n m den ch2 =>
        have hcs : childSpec bt start D p (.dir n m den ch2) =
            poppedSpec bt start D (pyJoin p n, .dir n m den ch2) := by
          simp [childSpec, hk, poppedSpec]
        have hfs : fileSpecs bt start D p (.dir n m den ch2 :: cs) =
            fileSpecs bt start D p cs := by
          simp [fileSpecs, List.filter_cons, hk, Entry.isdir]
        have hdm : dirMods bt start D p (.dir n m den ch2 :: cs) =
            (pyJoin p n, Entry.dir n m den ch2) :: dirMods bt start D p cs := by
          simp [dirMods, List.filter_cons, hk, Entry.isdir, Entry.name]
        rw [hcs, hfs, hdm, workSpec]
        simp only [← Multiset.coe_add, ih]
        abel

/-- Unfolding: an empty work list ends the scan loop. -/
theorem scanAux_nil (bt : List Char) (start : ℕ) (D : DestFS)
    (tasks : List Task) (amount : ℕ) :
    scanAux bt start D [] tasks amount = .ok (amount, tasks) := by
  simp only [scanAux]

/-- Unfolding: a denied directory is popped and skipped (`continue`). -/
theorem scanAux_denied_step (bt : List Char) (start : ℕ) (D : DestFS)
    (p n : List Char) (m : ℚ) (ch : List Entry)
    (rest : List (List Char × Entry)) (tasks : List Task) (amount : ℕ) :
    scanAux bt start D ((p, .dir n m true ch) :: rest) tasks amount =
      scanAux bt start D rest tasks amount := by
  simp only [scanAux]

/-- Unfolding: popping a readable directory lists it and distributes the
modified children with `pushMods`. -/
theorem scanAux_dir_step (bt : List Char) (start : ℕ) (D : DestFS)
    (p n : List Char) (m : ℚ) (ch : List Entry)
    (rest : List (List Char × Entry)) (tasks : List Task) (amount : ℕ)
    (mods : List (List Char × Entry))
    (hgmp : get_modified_paths bt p ch start D = .ok mods) :
    scanAux bt start D ((p, .dir n m false ch) :: rest) tasks amount =
      scanAux bt start D (pushMods bt start mods rest tasks amount).1
        (pushMods bt start mods rest tasks amount).2.1
        (pushMods bt start mods rest tasks amount).2.2 := by
  simp only [scanAux]
  split
  · rename_i e he
    rw [hgmp] at he
    cases he
  · rename_i mods2 hm2
    rw [hgmp] at hm2
    injection hm2 with hm2
    subst hm2
    rfl

/-- Full characterization of `pushMods`: kept directories go, reversed, to
the front of the work list; kept files are prepended (reversed) as tasks and
their sizes are added. -/
theorem pushMods_eq (to_path : List Char) (start_of_base : ℕ) :
    ∀ (mods scan_list : List (List Char × Entry)) (tasks : List Task) (amount : ℕ),
      pushMods to_path start_of_base mods scan_list tasks amount =
        ((mods.filter (fun pe => pe.2.isdir)).reverse ++ scan_list,
         ((mods.filter (fun pe => !pe.2.isdir)).map
            (fun pe => (pe.1, get_dest_path to_path pe.1 start_of_base))).reverse ++ tasks,
         amount + ((mods.filter (fun pe => !pe.2.isdir)).map (fun pe => pe.2.size)).sum) := by
  intro mods
  induction mods with
  | nil => intro scan_list tasks amount; simp [pushMods]
  | cons pe rest ih =>
    intro scan_list tasks amount
    obtain ⟨p, e⟩ := pe
    cases he : e.isdir with
    | true =>
      simp only [pushMods, he, if_pos rfl, ih, List.filter_cons, Bool.not_true,
        List.reverse_cons, List.append_assoc, List.singleton_append]
      simp [he]
    | false =>
      simp only [pushMods, he, ih, List.filter_cons, Bool.not_false, Bool.not_true,
        Bool.false_eq_true, if_false, if_true, List.map_cons, List.reverse_cons,
        List.append_assoc, List.singleton_append, List.sum_cons, Prod.mk.injEq]
      exact ⟨trivial, trivial, by omega⟩

/-- The kept directories of `get_modified_paths`, seen as work items, are
exactly `dirMods`. -/
theorem mods_filter_isdir (bt : List Char) (start : ℕ) (D : DestFS)
    (p : List Char) (ch : List Entry) :
    (((ch.filter (keepChild bt p start D)).map
        (fun c => (pyJoin p c.name, c))).filter (fun pe => pe.2.isdir)) =
      dirMods bt start D p ch := by
  rw [dirMods, List.filter_map, List.filter_filter]
  congr 1
  apply List.filter_congr
  intro a _
  simp [Function.comp, Bool.and_comm]

/-- The kept files of `get_modified_paths`, paired with their destinations,
are exactly the tasks of `fileSpecs`. -/
theorem mods_filter_files_tasks (bt : List Char) (start : ℕ) (D : DestFS)
    (p : List Char) (ch : List Entry) :
    (((ch.filter (keepChild bt p start D)).map
        (fun c => (pyJoin p c.name, c))).filter (fun pe => !pe.2.isdir)).map
      (fun pe => (pe.1, get_dest_path bt pe.1 start)) =
      (fileSpecs bt start D p ch).map (fun x => x.1) := by
  rw [fileSpecs, List.filter_map, List.filter_filter, List.map_map, List.map_map]
  have hflt : ch.filter
      (fun a => ((fun pe : List Char × Entry => !pe.2.isdir) ∘
        (fun c => (pyJoin p c.name, c))) a && keepChild bt p start D a) =
      ch.filter (fun c => keepChild bt p start D c && !c.isdir) := by
    apply List.filter_congr
    intro a _
    simp [Function.comp, Bool.and_comm]
  rw [hflt]
  apply List.map_congr_left
  intro a _
  rfl

/-- The sizes charged for the kept files are exactly the sizes recorded in
`fileSpecs`. -/
theorem mods_filter_files_sizes (bt : List Char) (start : ℕ) (D : DestFS)
    (p : List Char) (ch : List Entry) :
    (((ch.filter (keepChild bt p start D)).map
        (fun c => (pyJoin p c.name, c))).filter (fun pe => !pe.2.isdir)).map
      (fun pe => pe.2.size) =
      (fileSpecs bt start D p ch).map (fun x => x.2.size) := by
  rw [fileSpecs, List.filter_map, List.filter_filter, List.map_map, List.map_map]
  have hflt : ch.filter
      (fun a => ((fun pe : List Char × Entry => !pe.2.isdir) ∘
        (fun c => (pyJoin p c.name, c))) a && keepChild bt p start D a) =
      ch.filter (fun c => keepChild bt p start D c && !c.isdir) := by
    apply List.filter_congr
    intro a _
    simp [Function.comp, Bool.and_comm]
  rw [hflt]
  apply List.map_congr_left
  intro a _
  rfl

/-- `workMeasure` is additive. -/
theorem workMeasure_append (w1 w2 : List (List Char × Entry)) :
    workMeasure (w1 ++ w2) = workMeasure w1 + workMeasure w2 := by
  simp [workMeasure]

/-- `workMeasure` ignores order. -/
theorem workMeasure_reverse (w : List (List Char × Entry)) :
    workMeasure w.reverse = workMeasure w := by
  simp [workMeasure, List.map_reverse, List.sum_reverse]

/-- The kept directories of a listing weigh no more than the listing. -/
theorem workMeasure_dirMods_le (bt : List Char) (start : ℕ) (D : DestFS)
    (p : List Char) (ch : List Entry) :
    workMeasure (dirMods bt start D p ch) ≤ entryListSize ch := by
  rw [workMeasure, dirMods, List.map_map, entryListSize_eq_sum]
  have hsub : ((ch.filter (fun c => keepChild bt p start D c && c.isdir)).map
      entrySize).Sublist (ch.map entrySize) :=
    (List.filter_sublist ch).map entrySize
  have := hsub.sum_le_sum (fun a _ => Nat.zero_le a)
  simpa using this

/-- Transport of task multisets and size sums along a multiset equality. -/
theorem spec_coe_transport {l1 l2 : List (Task × Entry)}
    (h : (l1 : Multiset (Task × Entry)) = ↑l2) :
    (l1.map (fun x => x.2.size)).sum = (l2.map (fun x => x.2.size)).sum ∧
      (↑(l1.map (fun x => x.1)) : Multiset Task) = ↑(l2.map (fun x => x.1)) := by
  have hp : l1.Perm l2 := Multiset.coe_eq_coe.mp h
  exact ⟨(hp.map (fun x => x.2.size)).sum_eq,
    Multiset.coe_eq_coe.mpr (hp.map (fun x => x.1))⟩

/-- Soundness of the work-list loop against the structural specification:
starting from a queue of readable, ghost-free directories, `scanAux` returns
normally, adds exactly the sizes recorded by `workSpec` to the running
amount, and extends the accumulated task list by exactly the tasks of
`workSpec` (in some order). -/
theorem scanAux_sound (bt : List Char) (start : ℕ) (D : DestFS) :
    ∀ (N : ℕ) (work : List (List Char × Entry)) (tasks : List Task) (amount : ℕ),
      workMeasure work ≤ N →
      (∀ pe ∈ work, pe.2.isdir = true ∧ ghostFreeB pe.2 = true) →
      ∃ T, scanAux bt start D work tasks amount =
          .ok (amount + ((workSpec bt start D work).map (fun x => x.2.size)).sum, T) ∧
        (T : Multiset Task) =
          ↑((workSpec bt start D work).map (fun x => x.1)) + ↑tasks := by
  intro N
  induction N with
  | zero =>
    intro work tasks amount hm _
    cases work with
    | nil =>
      refine ⟨tasks, ?_, ?_⟩
      · rw [scanAux_nil]; simp [workSpec]
      · simp [workSpec]
    | cons pe rest =>
      exfalso
      have hpos := entrySize_pos pe.2
      simp only [workMeasure, List.map_cons, List.sum_cons] at hm
      omega
  | succ N ih =>
    intro work tasks amount hm hw
    cases work with
    | nil =>
      refine ⟨tasks, ?_, ?_⟩
      · rw [scanAux_nil]; simp [workSpec]
      · simp [workSpec]
    | cons pe rest =>
      obtain ⟨p, e⟩ := pe
      have hpe := hw (p, e) (List.mem_cons_self _ _)
      have hrest : ∀ q ∈ rest, q.2.isdir = true ∧ ghostFreeB q.2 = true :=
        fun q hq => hw q (List.mem_cons_of_mem _ hq)
      cases e with
      | file n m s => simp [Entry.isdir] at hpe
      | ghost g => simp [Entry.isdir] at hpe
      | dir n m den ch =>
        cases den with
        | true =>
          have hm2 : workMeasure rest ≤ N := by
            have hpos := entrySize_pos (Entry.dir n m true ch)
            simp only [workMeasure, List.map_cons, List.sum_cons] at hm
            simp only [workMeasure]
            omega
          obtain ⟨T, h1, h2⟩ := ih rest tasks amount hm2 hrest
          refine ⟨T, ?_, ?_⟩
          · rw [scanAux_denied_step, h1]
            simp [workSpec, poppedSpec]
          · rw [h2]
            simp [workSpec, poppedSpec]
        | false =>
          have hgf : ghostFreeL ch = true := by
            simpa [ghostFreeB] using hpe.2
          have hng : ∀ c ∈ ch, c.srcMtime ≠ none :=
            fun c hc => ghostFreeB_srcMtime (ghostFreeL_mem hgf c hc)
          have hgmp := get_modified_paths_ok bt p start D ch hng
          rw [scanAux_dir_step bt start D p n m ch rest tasks amount _ hgmp]
          rw [pushMods_eq]
          dsimp only
          rw [mods_filter_isdir, mods_filter_files_tasks, mods_filter_files_sizes]
          have hmeas : workMeasure ((dirMods bt start D p ch).reverse ++ rest) ≤ N := by
            rw [workMeasure_append, workMeasure_reverse]
            have hdm := workMeasure_dirMods_le bt start D p ch
            simp only [workMeasure, List.map_cons, List.sum_cons, entrySize] at hm
            simp only [workMeasure] at hdm ⊢
            omega
          have hworkok : ∀ q ∈ (dirMods bt start D p ch).reverse ++ rest,
              q.2.isdir = true ∧ ghostFreeB q.2 = true := by
            intro q hq
            rcases List.mem_append.mp hq with hq | hq
            · rw [List.mem_reverse] at hq
              simp only [dirMods, List.mem_map, List.mem_filter] at hq
              obtain ⟨c, ⟨hcch, hck⟩, rfl⟩ := hq
              exact ⟨(Bool.and_eq_true_iff.mp hck).2, ghostFreeL_mem hgf c hcch⟩
            · exact hrest q hq
          obtain ⟨T, h1, h2⟩ := ih ((dirMods bt start D p ch).reverse ++ rest)
            (((fileSpecs bt start D p ch).map (fun x => x.1)).reverse ++ tasks)
            (amount + ((fileSpecs bt start D p ch).map (fun x => x.2.size)).sum)
            hmeas hworkok
          have hsplit : (childListSpec bt start D p ch : Multiset (Task × Entry)) =
              ↑(fileSpecs bt start D p ch ++
                workSpec bt start D (dirMods bt start D p ch)) := by
            rw [childListSpec_split, Multiset.coe_add]
          have hrev : (workSpec bt start D (dirMods bt start D p ch).reverse :
              Multiset (Task × Entry)) =
              ↑(workSpec bt start D (dirMods bt start D p ch)) :=
            workSpec_reverse bt start D _
          have hcons : workSpec bt start D ((p, Entry.dir n m false ch) :: rest) =
              childListSpec bt start D p ch ++ workSpec bt start D rest := by
            simp [workSpec, poppedSpec]
          refine ⟨T, ?_, ?_⟩
          · rw [h1]
            congr 2
            rw [hcons, workSpec_append]
            have e1 := (spec_coe_transport hsplit).1
            have e2 := (spec_coe_transport hrev).1
            simp only [List.map_append, List.sum_append] at e1 e2 ⊢
            omega
          · rw [h2]
            have e1 := (spec_coe_transport hsplit).2
            have e2 := (spec_coe_transport hrev).2
            rw [hcons, workSpec_append]
            simp only [List.map_append, ← Multiset.coe_add, Multiset.coe_reverse] at e1 e2 ⊢
            rw [e2, e1]
            abel

/-- Soundness of the outer root loop: for readable, ghost-free directory
roots, `scan` returns the sizes and tasks of `rootsSpec`. -/
theorem scanRoots_sound (bt : List Char) (D : DestFS) :
    ∀ (roots : List (List Char × Entry)) (tasks : List Task) (amount : ℕ),
      (∀ pe ∈ roots, pe.2.isdir = true ∧ ghostFreeB pe.2 = true) →
      ∃ T, scanRoots bt D roots tasks amount =
          .ok (amount + ((rootsSpec bt D roots).map (fun x => x.2.size)).sum, T) ∧
        (T : Multiset Task) = ↑((rootsSpec bt D roots).map (fun x => x.1)) + ↑tasks := by
  intro roots
  induction roots with
  | nil =>
    intro tasks amount _
    exact ⟨tasks, by simp [scanRoots, rootsSpec], by simp [rootsSpec]⟩
  | cons r rest ih =>
    intro tasks amount hr
    obtain ⟨rp, re⟩ := r
    have hre := hr (rp, re) (List.mem_cons_self _ _)
    obtain ⟨T1, h1, h2⟩ := scanAux_sound bt (startOfBase rp) D
      (workMeasure [(rp, re)]) [(rp, re)] tasks amount le_rfl
      (by
        intro q hq
        rcases List.mem_singleton.mp hq with rfl
        exact hre)
    obtain ⟨T, hh1, hh2⟩ := ih T1
      (amount + ((workSpec bt (startOfBase rp) D [(rp, re)]).map
        (fun x => x.2.size)).sum)
      (fun q hq => hr q (List.mem_cons_of_mem _ hq))
    have hws : workSpec bt (startOfBase rp) D [(rp, re)] =
        poppedSpec bt (startOfBase rp) D (rp, re) := by
      simp [workSpec]
    refine ⟨T, ?_, ?_⟩
    · simp only [scanRoots, h1, hh1]
      congr 2
      rw [hws] at *
      simp only [rootsSpec, List.map_append, List.sum_append]
      omega
    · rw [hh2, h2, hws]
      simp only [rootsSpec, List.map_append, ← Multiset.coe_add]
      abel

/-- Membership in a listing's contribution comes from some child. -/
theorem mem_childListSpec (bt : List Char) (start : ℕ) (D : DestFS) (p : List Char) :
    ∀ (ch : List Entry) (x : Task × Entry), x ∈ childListSpec bt start D p ch →
      ∃ c ∈ ch, x ∈ childSpec bt start D p c := by
  intro ch
  induction ch with
  | nil => intro x hx; rw [childListSpec] at hx; cases hx
  | cons c cs ih =>
    intro x hx
    rw [childListSpec] at hx
    rcases List.mem_append.mp hx with hx | hx
    · exact ⟨c, List.mem_cons_self _ _, hx⟩
    · obtain ⟨c', hc', hx'⟩ := ih x hx
      exact ⟨c', List.mem_cons_of_mem _ hc', hx'⟩

/-- A member of a forest weighs no more than the forest. -/
theorem entrySize_le_of_mem : ∀ {ch : List Entry} {c : Entry}, c ∈ ch →
    entrySize c ≤ entryListSize ch := by
  intro ch
  induction ch with
  | nil => intro c hc; cases hc
  | cons a cs ih =>
    intro c hc
    rw [entryListSize]
    rcases List.mem_cons.mp hc with rfl | hc
    · omega
    · have := ih hc
      omega

/-- Every element a child contributes records a file entry (directories are
traversal nodes only and never become tasks). -/
theorem childSpec_isFile (bt : List Char) (start : ℕ) (D : DestFS) :
    ∀ (N : ℕ) (p : List Char) (c : Entry), entrySize c ≤ N →
      ∀ x ∈ childSpec bt start D p c, ∃ n m s, x.2 = Entry.file n m s := by
  intro N
  induction N with
  | zero =>
    intro p c hle
    have := entrySize_pos c
    omega
  | succ N ih =>
    intro p c hle x hx
    cases c with
    | file n m s =>
      rw [childSpec] at hx
      split at hx
      · rcases List.mem_singleton.mp hx with rfl
        exact ⟨n, m, s, rfl⟩
      · cases hx
    | ghost g => rw [childSpec] at hx; cases hx
    | dir n m den ch2 =>
      rw [childSpec] at hx
      split at hx
      · split at hx
        · cases hx
        · obtain ⟨c', hc', hx'⟩ := mem_childListSpec bt start D (pyJoin p n) ch2 x hx
          have hsz : entrySize c' ≤ N := by
            have h1 := entrySize_le_of_mem hc'
            have h2 : entrySize (Entry.dir n m den ch2) = 1 + entryListSize ch2 := by
              rw [entrySize]
            omega
          exact ih (pyJoin p n) c' hsz x hx'
      · cases hx

/-- `childSpec_isFile` lifted to whole work items. -/
theorem poppedSpec_isFile (bt : List Char) (start : ℕ) (D : DestFS)
    (pe : List Char × Entry) :
    ∀ x ∈ poppedSpec bt start D pe, ∃ n m s, x.2 = Entry.file n m s := by
  obtain ⟨p, e⟩ := pe
  cases e with
  | file n m s => intro x hx; simp [poppedSpec] at hx
  | ghost g => intro x hx; simp [poppedSpec] at hx
  | dir n m den ch =>
    intro x hx
    rw [poppedSpec] at hx
    split at hx
    · cases hx
    · obtain ⟨c', hc', hx'⟩ := mem_childListSpec bt start D p ch x hx
      exact childSpec_isFile bt start D (entryListSize ch) p c'
        (entrySize_le_of_mem hc') x hx'

/-- `childSpec_isFile` lifted to whole root lists. -/
theorem rootsSpec_isFile (bt : List Char) (D : DestFS) :
    ∀ (roots : List (List Char × Entry)),
      ∀ x ∈ rootsSpec bt D roots, ∃ n m s, x.2 = Entry.file n m s := by
  intro roots
  induction roots with
  | nil => intro x hx; rw [rootsSpec] at hx; cases hx
  | cons r rest ih =>
    obtain ⟨rp, re⟩ := r
    intro x hx
    rw [rootsSpec] at hx
    rcases List.mem_append.mp hx with hx | hx
    · exact poppedSpec_isFile bt (startOfBase rp) D (rp, re) x hx
    · exact ih x hx

/-- `childListSpec` distributes over appended listings. -/
theorem childListSpec_append (bt : List Char) (start : ℕ) (D : DestFS) (p : List Char) :
    ∀ (l1 l2 : List Entry), childListSpec bt start D p (l1 ++ l2) =
      childListSpec bt start D p l1 ++ childListSpec bt start D p l2 := by
  intro l1
  induction l1 with
  | nil => intro l2; simp [childListSpec]
  | cons c cs ih => intro l2; simp [childListSpec, ih]

/-- `ghostFreeL` distributes over appended forests. -/
theorem ghostFreeL_append : ∀ (l1 l2 : List Entry),
    ghostFreeL (l1 ++ l2) = (ghostFreeL l1 && ghostFreeL l2) := by
  intro l1
  induction l1 with
  | nil => intro l2; simp [ghostFreeL]
  | cons c cs ih => intro l2; simp [ghostFreeL, ih, Bool.and_assoc]

/-- C8: for every job of readable, ghost-free directory roots, `scan` returns
normally and `amount_to_back_up` is exactly the sum of the on-disk sizes, at
scan time, of the files backing the returned task list: the task list is (a
permutation of) the tasks of `rootsSpec`, each spec element records one file
entry, the amount is the sum of those entries' sizes, and no directory ever
appears as a task or contributes to the total. -/
theorem c8_amount_equals_task_sizes (bt : List Char) (D : DestFS)
    (roots : List (List Char × Entry))
    (hroots : ∀ pe ∈ roots, pe.2.isdir = true ∧ ghostFreeB pe.2 = true) :
    ∃ T, scan bt roots D =
        .ok (((rootsSpec bt D roots).map (fun x => x.2.size)).sum, T) ∧
      (T : Multiset Task) = ↑((rootsSpec bt D roots).map (fun x => x.1)) ∧
      ∀ x ∈ rootsSpec bt D roots, ∃ n m s, x.2 = Entry.file n m s := by
  obtain ⟨T, h1, h2⟩ := scanRoots_sound bt D roots [] 0 hroots
  refine ⟨T, ?_, ?_, rootsSpec_isFile bt D roots⟩
  · rw [scan, h1]
    norm_num
  · rw [h2]
    simp

/-- C8 (witness): the spec's scenario — empty destination, `s\a.txt` of 100
bytes and `s\sub\b.txt` of 50 bytes — through `c8_amount_equals_task_sizes`. -/
theorem c8_witness :
    ∃ T, scan "d".toList
        [("s".toList, .dir "s".toList 5 false
          [.file "a.txt".toList 5 100,
           .dir "sub".toList 5 false [.file "b.txt".toList 5 50]])]
        (fun _ => none) =
        .ok (((rootsSpec "d".toList (fun _ => none)
          [("s".toList, .dir "s".toList 5 false
            [.file "a.txt".toList 5 100,
             .dir "sub".toList 5 false [.file "b.txt".toList 5 50]])]).map
          (fun x => x.2.size)).sum, T) ∧
      (T : Multiset Task) = ↑((rootsSpec "d".toList (fun _ => none)
          [("s".toList, .dir "s".toList 5 false
            [.file "a.txt".toList 5 100,
             .dir "sub".toList 5 false [.file "b.txt".toList 5 50]])]).map
          (fun x => x.1)) ∧
      ∀ x ∈ rootsSpec "d".toList (fun _ => none)
          [("s".toList, .dir "s".toList 5 false
            [.file "a.txt".toList 5 100,
             .dir "sub".toList 5 false [.file "b.txt".toList 5 50]])],
        ∃ n m s, x.2 = Entry.file n m s :=
  c8_amount_equals_task_sizes _ _ _
    (by
      intro pe hpe
      rcases List.mem_singleton.mp hpe with rfl
      exact ⟨rfl, by simp [ghostFreeB, ghostFreeL]⟩)

/-- C7: a directory whose listing raises `PermissionError` is logged and
skipped as a whole — none of its files become tasks — and the scan continues
with the remaining work list and completes: the scan of a tree containing a
denied directory succeeds and returns exactly the amount and (up to order)
the task list of the same tree with the denied directory removed. -/
theorem c7_denied_subtree_skipped (bt rp rn dn : List Char) (rm dm : ℚ)
    (pre post dch : List Entry) (D : DestFS)
    (hg : ghostFreeL (pre ++ .dir dn dm true dch :: post) = true) :
    ∃ A T T',
      scan bt [(rp, .dir rn rm false (pre ++ .dir dn dm true dch :: post))] D =
        .ok (A, T) ∧
      scan bt [(rp, .dir rn rm false (pre ++ post))] D = .ok (A, T') ∧
      (T : Multiset Task) = ↑T' := by
  have hg2 : ghostFreeL (pre ++ post) = true := by
    rw [ghostFreeL_append, Bool.and_eq_true_iff] at hg
    obtain ⟨hpre, hdpost⟩ := hg
    rw [ghostFreeL, Bool.and_eq_true_iff] at hdpost
    rw [ghostFreeL_append, hpre, hdpost.2]
    rfl
  have hspec : rootsSpec bt D
      [(rp, .dir rn rm false (pre ++ .dir dn dm true dch :: post))] =
      rootsSpec bt D [(rp, .dir rn rm false (pre ++ post))] := by
    simp only [rootsSpec, poppedSpec, Bool.false_eq_true, if_false,
      childListSpec_append, childListSpec, childSpec_denied]
    simp
  obtain ⟨T, h1, h2⟩ := scanRoots_sound bt D
    [(rp, .dir rn rm false (pre ++ .dir dn dm true dch :: post))] [] 0
    (by
      intro q hq
      rcases List.mem_singleton.mp hq with rfl
      refine ⟨rfl, ?_⟩
      rw [ghostFreeB]
      exact (by rw [ghostFreeL_append] at hg ⊢; exact hg))
  obtain ⟨T', h1', h2'⟩ := scanRoots_sound bt D
    [(rp, .dir rn rm false (pre ++ post))] [] 0
    (by
      intro q hq
      rcases List.mem_singleton.mp hq with rfl
      refine ⟨rfl, ?_⟩
      rw [ghostFreeB]
      exact hg2)
  refine ⟨0 + ((rootsSpec bt D
      [(rp, .dir rn rm false (pre ++ .dir dn dm true dch :: post))]).map
      (fun x => x.2.size)).sum, T, T', ?_, ?_, ?_⟩
  · rw [scan]
    exact h1
  · rw [scan, h1', hspec]
  · rw [h2, h2', hspec]

/-- C7 (witness): a root with a readable stale file beside a denied
directory holding another file: both scans succeed with equal amounts and
task multisets. -/
theorem c7_witness :
    ∃ A T T',
      scan "d".toList
        [("r".toList, .dir "r".toList 5 false
          ([.file "a".toList 5 100] ++
            .dir "x".toList 5 true [.file "b".toList 5 50] :: []))]
        (fun _ => none) = .ok (A, T) ∧
      scan "d".toList
        [("r".toList, .dir "r".toList 5 false ([.file "a".toList 5 100] ++ []))]
        (fun _ => none) = .ok (A, T') ∧
      (T : Multiset Task) = ↑T' :=
  c7_denied_subtree_skipped _ _ _ _ _ _ _ _ _ _
    (by simp [ghostFreeL, ghostFreeB])

/-- For a file child, `keepChild` agrees with the claim's staleness exactly
when the file's modification time is positive (the scanner encodes a missing
destination as time `0` and compares strictly). -/
theorem keepChild_file_eq_stale (bt : List Char) (start : ℕ) (D : DestFS)
    (p n : List Char) (m : ℚ) (s : ℕ) (hm : (0 : ℚ) < m) :
    keepChild bt p start D (.file n m s) =
      staleFileB bt start D (pyJoin p n) m := by
  cases hD : D (get_dest_path bt (pyJoin p n) start) with
  | none => simp [keepChild, Entry.srcMtime, Entry.isdir, Entry.name, staleFileB, hD, hm]
  | some t => simp [keepChild, Entry.srcMtime, Entry.isdir, Entry.name, staleFileB, hD]

/-- On a tree whose modification times are all positive and whose listings
are all permitted, the scanner's structural specification produces exactly
the claim's stale files, with their tasks, in traversal order. -/
theorem spec_eq_stale_files (bt : List Char) (start : ℕ) (D : DestFS) :
    ∀ N : ℕ,
      (∀ (p : List Char) (c : Entry), entrySize c ≤ N →
        posMtimeB c = true → noDeniedB c = true →
        childSpec bt start D p c =
          ((filesUnder p c).filter (fileStaleB bt start D)).map
            (fun pe => ((pe.1, get_dest_path bt pe.1 start), pe.2))) ∧
      (∀ (p : List Char) (ch : List Entry), entryListSize ch ≤ N →
        posMtimeL ch = true → noDeniedL ch = true →
        childListSpec bt start D p ch =
          ((filesUnderL p ch).filter (fileStaleB bt start D)).map
            (fun pe => ((pe.1, get_dest_path bt pe.1 start), pe.2))) := by
  intro N
  induction N with
  | zero =>
    constructor
    · intro p c hle
      exact absurd hle (by have := entrySize_pos c; omega)
    · intro p ch hle _ _
      cases ch with
      | nil => simp [childListSpec, filesUnderL]
      | cons c cs =>
        exfalso
        have := entrySize_pos c
        rw [entryListSize] at hle
        omega
  | succ N ihN =>
    obtain ⟨ih1, ih2⟩ := ihN
    have h1 : ∀ (p : List Char) (c : Entry), entrySize c ≤ N + 1 →
        posMtimeB c = true → noDeniedB c = true →
        childSpec bt start D p c =
          ((filesUnder p c).filter (fileStaleB bt start D)).map
            (fun pe => ((pe.1, get_dest_path bt pe.1 start), pe.2)) := by
      intro p c hle hpos hnd
      cases c with
      | file n m s =>
        have hm : (0 : ℚ) < m := by simpa [posMtimeB] using hpos
        have hks := keepChild_file_eq_stale bt start D p n m s hm
        cases hst : staleFileB bt start D (pyJoin p n) m with
        | true =>
          rw [childSpec, hks, hst]
          simp [filesUnder, fileStaleB, List.filter_cons, hst]
        | false =>
          rw [childSpec, hks, hst]
          simp [filesUnder, fileStaleB, List.filter_cons, hst]
      | ghost g => simp [childSpec, filesUnder]
      | dir n m den ch2 =>
        have hnd2 : den = false ∧ noDeniedL ch2 = true := by
          simpa [noDeniedB] using hnd
        obtain ⟨hden, hnd3⟩ := hnd2
        subst hden
        have hpos2 : (0 : ℚ) < m ∧ posMtimeL ch2 = true := by
          simpa [posMtimeB] using hpos
        have hkeep : keepChild bt p start D (.dir n m false ch2) = true := by
          simp [keepChild, Entry.srcMtime, Entry.isdir, hpos2.1]
        rw [childSpec, hkeep]
        simp only [if_pos rfl, Bool.false_eq_true, if_false]
        rw [filesUnder]
        apply ih2 (pyJoin p n) ch2
        · have : entrySize (Entry.dir n m false ch2) = 1 + entryListSize ch2 := by
            rw [entrySize]
          omega
        · exact hpos2.2
        · exact hnd3
    refine ⟨h1, ?_⟩
    intro p ch
    induction ch with
    | nil => intro _ _ _; simp [childListSpec, filesUnderL]
    | cons c cs ihl =>
      intro hle hpos hnd
      rw [entryListSize] at hle
      have hposc : posMtimeB c = true ∧ posMtimeL cs = true := by
        simpa [posMtimeL] using hpos
      have hndc : noDeniedB c = true ∧ noDeniedL cs = true := by
        simpa [noDeniedL] using hnd
      rw [childListSpec, filesUnderL, List.filter_append, List.map_append]
      rw [h1 p c (by omega) hposc.1 hndc.1]
      rw [ihl (by omega) hposc.2 hndc.2]

/-- C1 (amended): for a well-formed source tree — a readable directory root
whose subtree has no vanished entries, no denied listings, distinct file
paths, and (the condition the code forces) strictly positive modification
times — the initial scan returns normally and its task list contains, exactly
once, the task of every file that is stale in the claim's sense (destination
missing, or destination mtime strictly below the source's), contains no task
for any up-to-date file (destination mtime at or above the source's), and
contains nothing else. -/
theorem c1_scan_finds_exactly_stale_files (bt rp rn : List Char) (rm : ℚ)
    (rch : List Entry) (D : DestFS)
    (hg : ghostFreeL rch = true) (hpos : posMtimeL rch = true)
    (hnd : noDeniedL rch = true)
    (hnodup : ((filesUnderL rp rch).map (fun pe => pe.1)).Nodup) :
    ∃ A T, scan bt [(rp, .dir rn rm false rch)] D = .ok (A, T) ∧
      (∀ pe ∈ filesUnderL rp rch,
        (fileStaleB bt (startOfBase rp) D pe = true →
          Multiset.count (pe.1, get_dest_path bt pe.1 (startOfBase rp))
            (T : Multiset Task) = 1) ∧
        (fileStaleB bt (startOfBase rp) D pe = false →
          Multiset.count (pe.1, get_dest_path bt pe.1 (startOfBase rp))
            (T : Multiset Task) = 0)) ∧
      (∀ t ∈ T, ∃ pe ∈ filesUnderL rp rch,
        fileStaleB bt (startOfBase rp) D pe = true ∧
        t = (pe.1, get_dest_path bt pe.1 (startOfBase rp))) := by
  obtain ⟨T, h1, h2⟩ := scanRoots_sound bt D [(rp, .dir rn rm false rch)] [] 0
    (by
      intro q hq
      rcases List.mem_singleton.mp hq with rfl
      refine ⟨rfl, ?_⟩
      rw [ghostFreeB]
      exact hg)
  have hroot : rootsSpec bt D [(rp, .dir rn rm false rch)] =
      childListSpec bt (startOfBase rp) D rp rch := by
    simp [rootsSpec, poppedSpec]
  have hD := (spec_eq_stale_files bt (startOfBase rp) D (entryListSize rch)).2
    rp rch le_rfl hpos hnd
  have hTasks : (rootsSpec bt D [(rp, .dir rn rm false rch)]).map (fun x => x.1) =
      ((filesUnderL rp rch).filter (fileStaleB bt (startOfBase rp) D)).map
        (fun pe => (pe.1, get_dest_path bt pe.1 (startOfBase rp))) := by
    rw [hroot, hD, List.map_map]
    apply List.map_congr_left
    intro a _
    rfl
  have h2' : (T : Multiset Task) =
      ↑(((filesUnderL rp rch).filter (fileStaleB bt (startOfBase rp) D)).map
        (fun pe => (pe.1, get_dest_path bt pe.1 (startOfBase rp)))) := by
    rw [h2, hTasks]
    simp
  have hTcount : ∀ x : Task, Multiset.count x (T : Multiset Task) =
      Multiset.count x
        (↑(((filesUnderL rp rch).filter (fileStaleB bt (startOfBase rp) D)).map
          (fun pe => (pe.1, get_dest_path bt pe.1 (startOfBase rp)))) :
          Multiset Task) := by
    intro x
    exact congrArg (Multiset.count x) h2'
  have hsubpaths : ((((filesUnderL rp rch).filter
      (fileStaleB bt (startOfBase rp) D)).map (fun pe => pe.1))).Sublist
      ((filesUnderL rp rch).map (fun pe => pe.1)) :=
    (List.filter_sublist _).map _
  have hnodup2 := hnodup.sublist hsubpaths
  have hsf : ((filesUnderL rp rch).filter
      (fileStaleB bt (startOfBase rp) D)).Nodup := hnodup2.of_map _
  have hnodupTasks : ((((filesUnderL rp rch).filter
      (fileStaleB bt (startOfBase rp) D)).map
      (fun pe => (pe.1, get_dest_path bt pe.1 (startOfBase rp))))).Nodup := by
    apply List.Nodup.map_on ?_ hsf
    intro x hx y hy hxy
    have hfst : x.1 = y.1 := by
      have := congrArg Prod.fst hxy
      simpa using this
    exact List.inj_on_of_nodup_map hnodup2 hx hy hfst
  refine ⟨0 + ((rootsSpec bt D [(rp, Entry.dir rn rm false rch)]).map
    (fun x => x.2.size)).sum, T, ?_, ?_, ?_⟩
  · rw [scan]
    exact h1
  · intro pe hpe
    constructor
    · intro hstale
      have hmem : (pe.1, get_dest_path bt pe.1 (startOfBase rp)) ∈
          (((filesUnderL rp rch).filter (fileStaleB bt (startOfBase rp) D)).map
            (fun q => (q.1, get_dest_path bt q.1 (startOfBase rp)))) :=
        List.mem_map_of_mem _ (List.mem_filter.mpr ⟨hpe, hstale⟩)
      rw [hTcount]
      exact Multiset.count_eq_one_of_mem (Multiset.coe_nodup.mpr hnodupTasks)
        (Multiset.mem_coe.mpr hmem)
    · intro hstale
      rw [hTcount, Multiset.count_eq_zero]
      intro hmem
      obtain ⟨pe', hpe', ht⟩ := List.mem_map.mp (Multiset.mem_coe.mp hmem)
      have hpe'f := List.mem_filter.mp hpe'
      have hfst : pe'.1 = pe.1 := by
        have := congrArg Prod.fst ht
        simpa using this
      have heq : pe' = pe :=
        List.inj_on_of_nodup_map hnodup hpe'f.1 hpe hfst
      rw [heq] at hpe'f
      rw [hpe'f.2] at hstale
      cases hstale
  · intro t ht
    have hmt : t ∈ (((filesUnderL rp rch).filter
        (fileStaleB bt (startOfBase rp) D)).map
        (fun pe => (pe.1, get_dest_path bt pe.1 (startOfBase rp)))) := by
      have hmem : t ∈ (T : Multiset Task) := Multiset.mem_coe.mpr ht
      rw [h2'] at hmem
      exact Multiset.mem_coe.mp hmem
    obtain ⟨pe, hpe, rfl⟩ := List.mem_map.mp hmt
    exact ⟨pe, (List.mem_filter.mp hpe).1, (List.mem_filter.mp hpe).2, rfl⟩

/-- C1 (witness): root `r` holding `r\a` (stale: no destination) and `r\b`
(fresh: destination newer), through `c1_scan_finds_exactly_stale_files`. -/
theorem c1_witness :
    ∃ A T, scan "d".toList
        [("r".toList, .dir "r".toList 1 false
          [.file "a".toList 5 100, .file "b".toList 3 50])]
        (fun q => if q = "d\\r\\b".toList then some 7 else none) = .ok (A, T) ∧
      (∀ pe ∈ filesUnderL "r".toList
          [.file "a".toList 5 100, .file "b".toList 3 50],
        (fileStaleB "d".toList (startOfBase "r".toList)
            (fun q => if q = "d\\r\\b".toList then some 7 else none) pe = true →
          Multiset.count (pe.1, get_dest_path "d".toList pe.1
            (startOfBase "r".toList)) (T : Multiset Task) = 1) ∧
        (fileStaleB "d".toList (startOfBase "r".toList)
            (fun q => if q = "d\\r\\b".toList then some 7 else none) pe = false →
          Multiset.count (pe.1, get_dest_path "d".toList pe.1
            (startOfBase "r".toList)) (T : Multiset Task) = 0)) ∧
      (∀ t ∈ T, ∃ pe ∈ filesUnderL "r".toList
          [.file "a".toList 5 100, .file "b".toList 3 50],
        fileStaleB "d".toList (startOfBase "r".toList)
          (fun q => if q = "d\\r\\b".toList then some 7 else none) pe = true ∧
        t = (pe.1, get_dest_path "d".toList pe.1 (startOfBase "r".toList))) :=
  c1_scan_finds_exactly_stale_files _ _ _ _ _ _
    (by simp [ghostFreeL, ghostFreeB])
    (by norm_num [posMtimeL, posMtimeB])
    (by simp [noDeniedL, noDeniedB])
    (by simp [filesUnderL, filesUnder, pyJoin, sep])

/-- C1 (counterexample): a source file with modification time `0.0` whose
destination does not exist.  The claim requires it to appear exactly once in
the initial task list, but `scan` encodes "destination missing" as mtime
`0.0` and keeps only items whose source mtime is strictly greater, so the
task list comes back empty (and the reported amount is `0`). -/
theorem c1_counterexample :
    scan "d".toList [("r".toList, .dir "r".toList 1 false [.file "a".toList 0 5])]
      (fun _ => none) = .ok (0, []) := by
  simp [scan, scanRoots, scanAux, get_modified_paths, pushMods, startOfBase, pyFind,
    findFrom, basename, isSepChar, pyJoin, get_dest_path, Entry.name, Entry.srcMtime,
    Entry.isdir, sep]

/-- C2 (counterexample): with a source that stays strictly newer than its
never-appearing destination (a permanently stale item), the copy/rescan loop
of `backup` is still running after 10 iterations — the retry ceiling the spec
suggests — with the item still queued: nothing is abandoned or reported. -/
theorem c2_counterexample :
    loopIter (fun _ _ => some 1) (fun _ _ => none) 0 10 [("a".toList, "b".toList)] =
      .ok [("a".toList, "b".toList)] := by
  rfl

/-- C2 (amended): the `while len(items_to_backup) > 0` loop of `backup` has no
retry ceiling: as long as every rescan returns the same non-empty stale set,
the loop state after any number of iterations is still that set — the loop
never terminates, never abandons the items and reports nothing. -/
theorem c2_loop_runs_forever (S D : ℕ → List Char → Option ℚ) (s : List Task)
    (hne : s ≠ []) (hstale : ∀ k, rescan (S k) (D k) s = .ok s) :
    ∀ (n k : ℕ), loopIter S D k n s = .ok s := by
  intro n
  induction n with
  | zero => intro _; rfl
  | succ n ih =>
    intro k
    simp only [loopIter, if_neg hne, hstale k]
    exact ih (k + 1)

/-- C2 (witness): the amended theorem applied to one permanently stale item
and three loop iterations. -/
theorem c2_witness :
    loopIter (fun _ _ => some 1) (fun _ _ => none) 0 3 [("a".toList, "b".toList)] =
      .ok [("a".toList, "b".toList)] :=
  c2_loop_runs_forever _ _ _ (by decide) (fun _ => by rfl) 3 0

/-- C3 (counterexample): for the root `ab\ab`, whose base name `ab` first
occurs at offset 0, the destination of the descendant `ab\ab\x` is
`d:\ab\ab\x`, not the `destRoot\basename(root)\suffix` =`d:\ab\x` the claim
requires: `str.find` returns the first occurrence, not the final-component
offset. -/
theorem c3_counterexample :
    get_dest_path "d:".toList "ab\\ab\\x".toList (startOfBase "ab\\ab".toList) =
      "d:\\ab\\ab\\x".toList ∧
    "d:\\ab\\ab\\x".toList ≠ "d:\\ab\\x".toList := by
  constructor
  · decide
  · decide

/-- C3 (amended): the round trip holds for every root whose base name first
occurs in the root path at the final-component offset (no earlier occurrence
of the base name as a substring): then the destination of `R\x\y` computed
with the offset derived for `R` is `destRoot\basename(R)\x\y`. -/
theorem c3_round_trip (R bt suffix : List Char)
    (h : findFrom (basename R) R = some (R.length - (basename R).length)) :
    get_dest_path bt (R ++ sep :: suffix) (startOfBase R) =
      bt ++ sep :: (basename R ++ sep :: suffix) := by
  obtain ⟨pre, hpre⟩ := basename_isSuffix R
  have hstart : startOfBase R = R.length - (basename R).length := by
    simp [startOfBase, pyFind, h]
  have hplen : pre.length = R.length - (basename R).length := by
    have := congrArg List.length hpre
    simp only [List.length_append] at this
    omega
  have hdrop : (R ++ sep :: suffix).drop (R.length - (basename R).length) =
      basename R ++ sep :: suffix := by
    calc (R ++ sep :: suffix).drop (R.length - (basename R).length)
        = ((pre ++ basename R) ++ sep :: suffix).drop pre.length := by
          rw [hpre, hplen]
      _ = basename R ++ sep :: suffix := by
          rw [List.append_assoc, List.drop_left]
  rw [get_dest_path, hstart, hdrop]

/-- C3 (witness): the amended round trip at the root `c:\data\proj` and the
descendant suffix `x\y`. -/
theorem c3_witness :
    get_dest_path "e:".toList ("c:\\data\\proj".toList ++ sep :: "x\\y".toList)
        (startOfBase "c:\\data\\proj".toList) =
      "e:".toList ++ sep :: (basename "c:\\data\\proj".toList ++ sep :: "x\\y".toList) :=
  c3_round_trip _ _ _ (by decide)

/-- C4: `copy` invokes `subprocess.run` without `check=True`, so
`CalledProcessError` is never raised and the `except` branch that would
return an error message is dead code: whatever nonzero exit code the copy
primitive reports, `copy` returns `None` (success) and the aggregated error
report of a whole pass is empty — the failure is silently swallowed instead
of surfaced as a `CopyFailed`-style error. -/
theorem c4_copy_swallows_failure (item : Task) (exit_code : ℤ)
    (items : List Task) (exit_codes : List ℤ) (hc : exit_code ≠ 0) :
    copy item exit_code = none ∧ backup_with_threading items exit_codes = [] := by
  refine ⟨rfl, ?_⟩
  simp [backup_with_threading, copy, pyRun]

/-- C4 (witness): a copy whose `xcopy` exits with status 4 still reports
success, and a pass over such items reports no errors. -/
theorem c4_witness :
    copy ("s\\a".toList, "d\\a".toList) 4 = none ∧
    backup_with_threading [("s\\a".toList, "d\\a".toList)] [4] = [] :=
  c4_copy_swallows_failure _ _ _ _ (by decide)

/-- C5 (counterexample): a directory listing contains `r\g`, which vanishes
before `os.path.getmtime` runs.  `get_modified_paths` raises
`FileNotFoundError` and no caller catches it: `scan` aborts with the error
instead of skipping the item — the stale sibling `r\a` is never copied and
the run crashes. -/
theorem c5_counterexample :
    scan "d".toList
      [("r".toList, .dir "r".toList 5 false [.ghost "g".toList, .file "a".toList 5 3])]
      (fun _ => none) = .error .fileNotFound := by
  simp [scan, scanRoots, scanAux, get_modified_paths, startOfBase, pyFind, findFrom,
    basename, isSepChar, pyJoin, get_dest_path, Entry.name, Entry.srcMtime, sep]

/-- C5 (amended): when a source item vanishes before the change check, the
check does raise the `NotFound` error — but no caller treats it as "skip,
not fatal": the exception propagates out of both `scan` and `rescan`,
aborting the run. -/
theorem c5_not_found_uncaught (bt rp rn : List Char) (rm : ℚ)
    (pre post : List Entry) (g : List Char) (D : DestFS)
    (S : List Char → Option ℚ) (preT postT : List Task) (src dest : List Char)
    (hS : S src = none) :
    scan bt [(rp, .dir rn rm false (pre ++ .ghost g :: post))] D =
      .error .fileNotFound ∧
    rescan S D (preT ++ (src, dest) :: postT) = .error .fileNotFound := by
  constructor
  · have haux : scanAux bt (startOfBase rp) D
        [(rp, .dir rn rm false (pre ++ .ghost g :: post))] [] 0 =
        .error .fileNotFound := by
      simp only [scanAux]
      split
      · rename_i e he
        rw [get_modified_paths_ghost] at he
        injection he with he2
        subst he2
        rfl
      · rename_i mods hm
        rw [get_modified_paths_ghost] at hm
        cases hm
    simp [scan, scanRoots, haux]
  · exact rescan_vanished S D src dest hS preT postT

/-- C5 (witness): the amended theorem at a one-ghost listing and a one-item
rescan list whose source is gone. -/
theorem c5_witness :
    scan "d".toList
      [("r".toList, .dir "r".toList 5 false ([] ++ .ghost "g".toList :: []))]
      (fun _ => none) = .error .fileNotFound ∧
    rescan (fun _ => none) (fun _ => none) ([] ++ ("s".toList, "t".toList) :: []) =
      .error .fileNotFound :=
  c5_not_found_uncaught _ _ _ _ _ _ _ _ _ _ _ _ _ rfl

/-- C6 (counterexample): a source root that is a single stale file (its
destination does not exist).  `scan` puts the root on the work list and calls
`os.listdir` on it, which raises `NotADirectoryError`; only `PermissionError`
is caught, so `scan` crashes instead of completing and copying the file. -/
theorem c6_counterexample :
    scan "d".toList [("s\\f".toList, .file "f".toList 5 10)] (fun _ => none) =
      .error .notADirectory := by
  simp [scan, scanRoots, scanAux]

/-- C6 (amended): only directory roots are supported: for every job whose
first source root resolves to a plain file, `scan` raises
`NotADirectoryError` from `os.listdir` (uncaught), whatever the file's
staleness; it never returns a result, let alone copies the file. -/
theorem c6_file_root_raises (bt rp n : List Char) (m : ℚ) (s : ℕ)
    (roots : List (List Char × Entry)) (D : DestFS) :
    scan bt ((rp, .file n m s) :: roots) D = .error .notADirectory := by
  simp [scan, scanRoots, scanAux]

/-- C9 (counterexample): an empty but readable job file parses to the job
`('', [])`, which is *not* the `('', '')` sentinel — `proceeds_to_scan` is
true, so the orchestrator does not skip the scan, contradicting the claim
that empty input yields the "no job" result. -/
theorem c9_counterexample :
    read_backup_info (some []) = ReadResult.job [] [] ∧
    proceeds_to_scan (read_backup_info (some [])) = true := by
  exact ⟨rfl, rfl⟩

/-- C9 (amended): only an unopenable job file (`FileNotFoundError`) produces
the distinguished `('', '')` "no job" result, and only that result makes the
orchestrator skip the scan; every readable input — the empty file included —
parses to a job and the scan runs (over an empty root list it returns zero
bytes and no tasks). -/
theorem c9_no_job_only_when_unopenable :
    read_backup_info none = ReadResult.noJob ∧
    proceeds_to_scan ReadResult.noJob = false ∧
    (∀ lines, proceeds_to_scan (read_backup_info (some lines)) = true) ∧
    (∀ (bt : List Char) (D : DestFS), scan bt [] D = .ok (0, [])) := by
  exact ⟨rfl, rfl, fun _ => rfl, fun _ _ => rfl⟩

/-- C10: the byte-size formatter crashes above `1024 ^ 5` bytes and only
there: for every amount greater than `1024 ^ 5` the final `name_idx` reaches
the length of the five-entry unit list and `size_names[name_idx]` raises
`IndexError` (modelled by `none`); for every amount at or below the bound the
formatter returns a value. -/
theorem c10_format_threshold (amount : ℚ) :
    (1024 ^ 5 < amount → get_proper_size_from amount = none) ∧
    (amount ≤ 1024 ^ 5 → (get_proper_size_from amount).isSome = true) := by
  constructor
  · intro h
    have h5 : 4 < sizeIdx amount := lt_sizeIdx 4 (by norm_num at h ⊢; exact h)
    have hnone : size_names[sizeIdx amount]? = none := by
      apply List.getElem?_eq_none
      simp only [size_names, List.length_cons, List.length_nil]
      omega
    simp only [get_proper_size_from, hnone]
  · intro h
    have h5 : sizeIdx amount ≤ 4 := sizeIdx_le 4 (by norm_num at h ⊢; exact h)
    have hlt : sizeIdx amount < size_names.length := by
      simp only [size_names, List.length_cons, List.length_nil]
      omega
    simp only [get_proper_size_from, List.getElem?_eq_getElem hlt]
    rfl

/-- C10 (witness): one byte above the threshold crashes; 150 bytes formats. -/
theorem c10_witness :
    get_proper_size_from ((1024 : ℚ) ^ 5 + 1) = none ∧
    (get_proper_size_from 150).isSome = true :=
  ⟨(c10_format_threshold _).1 (by norm_num), (c10_format_threshold _).2 (by norm_num)⟩

end Backupper
